import Mathlib

/-!
Shallow embedding of `src/effects/effect_char.py` from tjwei/terminaltexteffects.

Python `int` values are modelled as `ℤ`, Python `float` values as exact
rationals `ℚ` (the repository only adds, subtracts and divides these floats;
the exact-rational idealization is noted wherever a claim's truth could
depend on IEEE-754 rounding), Python lists as `List`, and the mutating
methods `move` / `step_animation` as state-passing functions
`EffectCharacter → EffectCharacter`.
-/

/-- Python `int(x)` applied to a float/rational: truncation toward zero. -/
def pyInt (q : ℚ) : ℤ := if 0 ≤ q then ⌊q⌋ else ⌈q⌉

/-- Mirrors `Coord` (effect_char.py lines 6-15): a column/row pair. -/
structure Coord where
  column : ℤ
  row : ℤ
deriving DecidableEq, Repr

/-- Mirrors `GraphicalEffect` (lines 18-45): eight boolean modes and a color. -/
structure GraphicalEffect where
  bold : Bool := false
  dim : Bool := false
  italic : Bool := false
  underline : Bool := false
  blink : Bool := false
  reverse : Bool := false
  hidden : Bool := false
  strike : Bool := false
  color : ℤ := 0
deriving DecidableEq, Repr

/-- Mirrors `GraphicalEffect.disable_modes` (lines 47-56): sets the eight
boolean modes to `False`; the color field is not written. -/
def GraphicalEffect.disable_modes (g : GraphicalEffect) : GraphicalEffect :=
  { g with bold := false, dim := false, italic := false, underline := false,
           blink := false, reverse := false, hidden := false, strike := false }

/-- Mirrors `AnimationUnit` (lines 59-76): symbol, duration, looping flag,
graphical effect, plus the `frames_played` counter set by `__post_init__`. -/
structure AnimationUnit where
  symbol : String
  duration : ℤ
  looping : Bool := false
  graphicaleffect : GraphicalEffect := {}
  frames_played : ℤ := 0
deriving DecidableEq, Repr

/-- The `AnimationUnit` dataclass constructor together with `__post_init__`
(lines 59-76).  The Python code performs no validation and cannot fail; the
`Option` wrapper exists so that the fail-fast claim about invalid durations
can be stated: the result is `some` for every input, including
`duration ≤ 0`. -/
def AnimationUnit.construct (symbol : String) (duration : ℤ) (looping : Bool)
    (graphicaleffect : GraphicalEffect) : Option AnimationUnit :=
  some { symbol := symbol, duration := duration, looping := looping,
         graphicaleffect := graphicaleffect, frames_played := 0 }

/-- Mirrors `EffectCharacter`'s instance attributes (lines 97-132). -/
structure EffectCharacter where
  symbol : String
  input_symbol : String
  alternate_symbol : String
  use_alternate_symbol : Bool
  animation_units : List AnimationUnit
  input_coord : Coord
  current_coord : Coord
  previous_coord : Coord
  target_coord : Coord
  waypoints : List Coord
  graphical_effect : GraphicalEffect
  final_graphical_effect : GraphicalEffect
  move_delta : ℚ
  row_delta : ℚ
  column_delta : ℚ
  tweened_column : ℚ
  tweened_row : ℚ
deriving DecidableEq, Repr

/-- Mirrors `EffectCharacter.__init__` (lines 97-132). -/
def EffectCharacter.init (symbol : String) (input_column input_row : ℤ) :
    EffectCharacter :=
  { symbol := symbol
    input_symbol := symbol
    alternate_symbol := symbol
    use_alternate_symbol := false
    animation_units := []
    input_coord := ⟨input_column, input_row⟩
    current_coord := ⟨input_column, input_row⟩
    previous_coord := ⟨-1, -1⟩
    target_coord := ⟨input_column, input_row⟩
    waypoints := []
    graphical_effect := {}
    final_graphical_effect := {}
    move_delta := 0
    row_delta := 0
    column_delta := 0
    tweened_column := 0
    tweened_row := 0 }

/-- The advancing step of `step_animation` (lines 178-188): if the front
unit has not yet played for its duration, increment its counter; otherwise
pop it, re-appending it with a reset counter when it is looping. -/
def advance_units : List AnimationUnit → List AnimationUnit
  | [] => []
  | u :: rest =>
    if u.frames_played < u.duration then
      { u with frames_played := u.frames_played + 1 } :: rest
    else if u.looping then
      rest ++ [{ u with frames_played := 0 }]
    else
      rest

/-- The publishing step of `step_animation` (lines 190-203): copy the front
unit's symbol and graphical effect, or fall back to the alternate/input
symbol and the final graphical effect when no units remain. -/
def publish_frame (c : EffectCharacter) : EffectCharacter :=
  match c.animation_units with
  | u :: _ => { c with symbol := u.symbol, graphical_effect := u.graphicaleffect }
  | [] =>
    { c with
      symbol := if c.use_alternate_symbol then c.alternate_symbol else c.input_symbol
      graphical_effect := c.final_graphical_effect }

/-- Mirrors `EffectCharacter.step_animation` (lines 176-203). -/
def EffectCharacter.step_animation (c : EffectCharacter) : EffectCharacter :=
  publish_frame { c with animation_units := advance_units c.animation_units }

/-- Mirrors `EffectCharacter.animation_completed` (lines 205-212).  The
Python `only_looping` loop is `True` exactly when every unit in the list is
looping, i.e. `List.all`. -/
def EffectCharacter.animation_completed (c : EffectCharacter) : Bool :=
  decide (c.previous_coord = c.input_coord) &&
    (c.animation_units.isEmpty || c.animation_units.all fun u => u.looping)

/-- Lines 136-142 of `move`: record the previous coordinate, then, if the
character sits on its target and waypoints are queued, pop the next waypoint
as the new target and reset `move_delta` for recalculation. -/
def move_pop (c : EffectCharacter) : EffectCharacter :=
  let c := { c with previous_coord := c.current_coord }
  match c.waypoints with
  | [] => c
  | w :: ws =>
    if c.current_coord = c.target_coord then
      { c with target_coord := w, waypoints := ws, move_delta := 0 }
    else
      c

/-- Lines 144-161 of `move`: when `move_delta` is zero, recompute the
tweening state from the per-axis distances: `move_delta = min/max` (clamped
to 1 when zero), the smaller-distance axis gets the fractional delta and the
larger-distance axis a full step of 1 (both 1 on ties).  The pair `deltas`
is `(column_delta, row_delta)` as assigned by the source's three branches. -/
def move_recalc (c : EffectCharacter) : EffectCharacter :=
  let column_distance : ℤ := |c.current_coord.column - c.target_coord.column|
  let row_distance : ℤ := |c.current_coord.row - c.target_coord.row|
  if c.move_delta = 0 then
    let md : ℚ :=
      ((min column_distance row_distance : ℤ) : ℚ) /
        ((max (max column_distance row_distance) 1 : ℤ) : ℚ)
    let md : ℚ := if md = 0 then 1 else md
    let deltas : ℚ × ℚ :=
      if column_distance < row_distance then (md, 1)
      else if row_distance < column_distance then (1, md)
      else (1, 1)
    { c with
      tweened_column := (c.current_coord.column : ℚ),
      tweened_row := (c.current_coord.row : ℚ),
      move_delta := md,
      column_delta := deltas.1,
      row_delta := deltas.2 }
  else
    c

/-- Lines 163-168 of `move`: advance the column axis toward the target by
`column_delta` in the float accumulator and truncate to an integer; an axis
already at its target is not touched. -/
def move_col (c : EffectCharacter) : EffectCharacter :=
  if c.current_coord.column < c.target_coord.column then
    let t := c.tweened_column + c.column_delta
    { c with tweened_column := t,
             current_coord := { c.current_coord with column := pyInt t } }
  else if c.target_coord.column < c.current_coord.column then
    let t := c.tweened_column - c.column_delta
    { c with tweened_column := t,
             current_coord := { c.current_coord with column := pyInt t } }
  else
    c

/-- Lines 169-174 of `move`: the row-axis analogue of `move_col`. -/
def move_row (c : EffectCharacter) : EffectCharacter :=
  if c.current_coord.row < c.target_coord.row then
    let t := c.tweened_row + c.row_delta
    { c with tweened_row := t,
             current_coord := { c.current_coord with row := pyInt t } }
  else if c.target_coord.row < c.current_coord.row then
    let t := c.tweened_row - c.row_delta
    { c with tweened_row := t,
             current_coord := { c.current_coord with row := pyInt t } }
  else
    c

/-- Mirrors `EffectCharacter.move` (lines 134-174): the waypoint pop, the
delta recalculation and the two axis updates, in the source's order. -/
def EffectCharacter.move (c : EffectCharacter) : EffectCharacter :=
  move_row (move_col (move_recalc (move_pop c)))

/-- The number of `step_animation` calls a fully fresh all-looping unit list
takes to return to itself: the sum of the durations plus one pop tick per
unit. -/
def cycle_len (us : List AnimationUnit) : ℕ :=
  (us.map fun u => u.duration.toNat).sum + us.length

/-- `x` lies in the closed interval spanned by `a` and `b`. -/
def between (a b x : ℤ) : Prop := min a b ≤ x ∧ x ≤ max a b

/-- Well-formedness of the motion-tweening state: either `move_delta` is
zero (a recalculation is pending, as after `__init__` or a waypoint pop), or
the deltas lie in `(0, 1]` and each axis is at its target or agrees with its
nonnegative float accumulator. -/
def TweenInv (c : EffectCharacter) : Prop :=
  c.move_delta = 0 ∨
    (0 < c.column_delta ∧ c.column_delta ≤ 1 ∧ 0 < c.row_delta ∧ c.row_delta ≤ 1 ∧
      (c.current_coord.column = c.target_coord.column ∨
        (0 ≤ c.tweened_column ∧ pyInt c.tweened_column = c.current_coord.column)) ∧
      (c.current_coord.row = c.target_coord.row ∨
        (0 ≤ c.tweened_row ∧ pyInt c.tweened_row = c.current_coord.row)))

/-- A character whose animation is a non-looping two-unit scene with symbols
`"a"`, `"b"` and durations `[2, 3]`, on an input symbol `"x"`. -/
def c1char : EffectCharacter :=
  { EffectCharacter.init "x" 0 0 with
    animation_units := [⟨"a", 2, false, {}, 0⟩, ⟨"b", 3, false, {}, 0⟩] }

/-- A character whose animation is a looping two-unit scene with symbols
`"a"`, `"b"` and durations `[1, 1]`, on an input symbol `"x"`. -/
def c6char : EffectCharacter :=
  { EffectCharacter.init "x" 0 0 with
    animation_units := [⟨"a", 1, true, {}, 0⟩, ⟨"b", 1, true, {}, 0⟩] }

/-- A character holding a single non-looping unit of duration `0`. -/
def c7char : EffectCharacter :=
  { EffectCharacter.init "x" 0 0 with animation_units := [⟨"a", 0, false, {}, 0⟩] }

/-- A freshly reset character at `(0, 0)` targeting `(2, 1)`. -/
def c4char : EffectCharacter :=
  { EffectCharacter.init "x" 0 0 with target_coord := ⟨2, 1⟩ }

/-- A character at `(0, 0)` with three queued waypoints. -/
def c5char : EffectCharacter :=
  { EffectCharacter.init "x" 0 0 with waypoints := [⟨1, 0⟩, ⟨1, 1⟩, ⟨0, 0⟩] }

/-- `step_animation` only writes `animation_units`, `symbol` and
`graphical_effect`; every other field is untouched. -/
theorem step_animation_fields (c : EffectCharacter) :
    (c.step_animation).animation_units = advance_units c.animation_units ∧
    (c.step_animation).previous_coord = c.previous_coord ∧
    (c.step_animation).input_coord = c.input_coord ∧
    (c.step_animation).use_alternate_symbol = c.use_alternate_symbol ∧
    (c.step_animation).alternate_symbol = c.alternate_symbol ∧
    (c.step_animation).input_symbol = c.input_symbol ∧
    (c.step_animation).final_graphical_effect = c.final_graphical_effect := by
  unfold EffectCharacter.step_animation publish_frame
  rcases h : advance_units c.animation_units with _ | ⟨u, rest⟩ <;> simp [h]

/-- Claim C10: `disable_modes` sets all eight boolean mode flags to `False`
and leaves the color field unchanged. -/
theorem claim10_disable_modes_resets (g : GraphicalEffect) :
    (g.disable_modes).bold = false ∧ (g.disable_modes).dim = false ∧
    (g.disable_modes).italic = false ∧ (g.disable_modes).underline = false ∧
    (g.disable_modes).blink = false ∧ (g.disable_modes).reverse = false ∧
    (g.disable_modes).hidden = false ∧ (g.disable_modes).strike = false ∧
    (g.disable_modes).color = g.color := by
  simp [GraphicalEffect.disable_modes]

/-- Claim C3: `animation_completed` returns `True` iff the previous
coordinate equals the input coordinate and every remaining unit is looping
(vacuously so for an empty list); hence a character at home with a
non-looping unit still queued is not complete, and is complete once it is
consumed. -/
theorem claim3_completed_iff (c : EffectCharacter) :
    c.animation_completed = true ↔
      (c.previous_coord = c.input_coord ∧
        ∀ u ∈ c.animation_units, u.looping = true) := by
  simp only [EffectCharacter.animation_completed, Bool.and_eq_true,
    Bool.or_eq_true, decide_eq_true_eq, List.isEmpty_iff, List.all_eq_true]
  constructor
  · rintro ⟨h1, h2 | h2⟩
    · exact ⟨h1, by simp [h2]⟩
    · exact ⟨h1, h2⟩
  · rintro ⟨h1, h2⟩
    exact ⟨h1, Or.inr h2⟩

/-- Claim C7 disproved as stated: constructing an `AnimationUnit` with
duration `0` succeeds (no error is raised). -/
theorem claim7_counterexample :
    (AnimationUnit.construct "a" 0 false {}).isSome = true := rfl

/-- Claim C7 (amended): `AnimationUnit` construction performs no validation
and accepts every duration, including `duration ≤ 0`; a non-looping unit
with such a duration is then silently consumed by the first
`step_animation` call instead of being surfaced as an error. -/
theorem claim7_no_validation (s : String) (d : ℤ) (l : Bool)
    (g : GraphicalEffect) (c : EffectCharacter) (hd : d ≤ 0)
    (hu : c.animation_units =
      [{ symbol := s, duration := d, looping := false, graphicaleffect := g,
         frames_played := 0 }]) :
    (AnimationUnit.construct s d l g).isSome = true ∧
    (c.step_animation).animation_units = [] := by
  refine ⟨rfl, ?_⟩
  rw [(step_animation_fields c).1, hu]
  simp [advance_units, not_lt.2 hd]

/-- Witness for C7 at a concrete unit of duration `0`. -/
theorem claim7_witness :
    (AnimationUnit.construct "a" 0 false {}).isSome = true ∧
    (c7char.step_animation).animation_units = [] :=
  claim7_no_validation "a" 0 false {} c7char (by decide) rfl

/-- Claim C9 disproved as stated: a character constructed at input
coordinate `(-1, -1)` has `previous_coord = input_coord` from the start, so
with no animation units `animation_completed` is `True` before any `move`. -/
theorem claim9_counterexample :
    (EffectCharacter.init "a" (-1) (-1)).animation_completed = true := by decide

/-- Claim C9 (amended): for every symbol and every input coordinate other
than `(-1, -1)`, a freshly constructed character reports
`animation_completed = False`, and it stays `False` under any number of
`step_animation` calls (only `move` writes `previous_coord`). -/
theorem claim9_fresh_not_completed (s : String) (col row : ℤ)
    (h : ¬(col = -1 ∧ row = -1)) (n : ℕ) :
    ((EffectCharacter.step_animation)^[n]
        (EffectCharacter.init s col row)).animation_completed = false := by
  have key : ∀ m : ℕ,
      ((EffectCharacter.step_animation)^[m]
          (EffectCharacter.init s col row)).previous_coord = ⟨-1, -1⟩ ∧
      ((EffectCharacter.step_animation)^[m]
          (EffectCharacter.init s col row)).input_coord = ⟨col, row⟩ := by
    intro m
    induction m with
    | zero => exact ⟨rfl, rfl⟩
    | succ k ih =>
      rw [Function.iterate_succ_apply']
      obtain ⟨-, hp, hi, -⟩ := step_animation_fields
        ((EffectCharacter.step_animation)^[k] (EffectCharacter.init s col row))
      exact ⟨hp.trans ih.1, hi.trans ih.2⟩
  have hne : (⟨-1, -1⟩ : Coord) ≠ ⟨col, row⟩ := by
    intro he
    cases he
    exact h ⟨rfl, rfl⟩
  simp [EffectCharacter.animation_completed, (key n).1, (key n).2, hne]

/-- Witness for C9 at input coordinate `(0, 0)` and zero steps. -/
theorem claim9_witness :
    ((EffectCharacter.step_animation)^[0]
        (EffectCharacter.init "a" 0 0)).animation_completed = false :=
  claim9_fresh_not_completed "a" 0 0 (by decide) 0

/-- The publishing rule of `step_animation`, phrased on the unit list after
the advancing step. -/
theorem publish_rule (c : EffectCharacter) :
    (advance_units c.animation_units = [] →
      (c.step_animation).symbol =
        (if c.use_alternate_symbol then c.alternate_symbol else c.input_symbol) ∧
      (c.step_animation).graphical_effect = c.final_graphical_effect) ∧
    (∀ u rest, advance_units c.animation_units = u :: rest →
      (c.step_animation).symbol = u.symbol ∧
      (c.step_animation).graphical_effect = u.graphicaleffect) := by
  constructor
  · intro h
    unfold EffectCharacter.step_animation publish_frame
    simp [h]
  · intro u rest h
    unfold EffectCharacter.step_animation publish_frame
    simp [h]

/-- Claim C8: after the advancing step, an empty unit list publishes the
alternate symbol (when flagged) or the input symbol together with the final
graphical effect; a nonempty list publishes the front unit's symbol and
graphical effect. -/
theorem claim8_publish (c : EffectCharacter) :
    (advance_units c.animation_units = [] →
      (c.step_animation).symbol =
        (if c.use_alternate_symbol then c.alternate_symbol else c.input_symbol) ∧
      (c.step_animation).graphical_effect = c.final_graphical_effect) ∧
    (∀ u rest, advance_units c.animation_units = u :: rest →
      (c.step_animation).symbol = u.symbol ∧
      (c.step_animation).graphical_effect = u.graphicaleffect) :=
  publish_rule c

/-- Once the unit list is empty, `step_animation` keeps it empty and keeps
publishing the fallback symbol and effect. -/
theorem step_animation_empty (c : EffectCharacter)
    (h : c.animation_units = []) :
    (c.step_animation).animation_units = [] ∧
    (c.step_animation).symbol =
      (if c.use_alternate_symbol then c.alternate_symbol else c.input_symbol) ∧
    (c.step_animation).graphical_effect = c.final_graphical_effect := by
  have ha : advance_units c.animation_units = [] := by rw [h]; rfl
  refine ⟨by rw [(step_animation_fields c).1, ha], ?_⟩
  exact (publish_rule c).1 ha

/-- Iterated `step_animation`: the unit list is the iterated advancing step,
and the fallback-relevant fields never change. -/
theorem step_iterate_fields (c : EffectCharacter) (n : ℕ) :
    ((EffectCharacter.step_animation)^[n] c).animation_units =
      (advance_units)^[n] c.animation_units ∧
    ((EffectCharacter.step_animation)^[n] c).use_alternate_symbol =
      c.use_alternate_symbol ∧
    ((EffectCharacter.step_animation)^[n] c).alternate_symbol =
      c.alternate_symbol ∧
    ((EffectCharacter.step_animation)^[n] c).input_symbol = c.input_symbol ∧
    ((EffectCharacter.step_animation)^[n] c).final_graphical_effect =
      c.final_graphical_effect := by
  induction n with
  | zero => exact ⟨rfl, rfl, rfl, rfl, rfl⟩
  | succ k ih =>
    rw [Function.iterate_succ_apply', Function.iterate_succ_apply']
    obtain ⟨hu, -, -, hua, hal, hin, hfe⟩ :=
      step_animation_fields ((EffectCharacter.step_animation)^[k] c)
    exact ⟨by rw [hu, ih.1], hua.trans ih.2.1, hal.trans ih.2.2.1,
      hin.trans ih.2.2.2.1, hfe.trans ih.2.2.2.2⟩

/-- Claim C1 disproved as stated: on the `[2, 3]` two-unit non-looping
scene, tick 6 still shows the second unit's symbol, not the input symbol
(the pop tick of a unit already displays its successor without counting, so
the second unit is shown for ticks 3-6). -/
theorem claim1_counterexample :
    ((EffectCharacter.step_animation)^[6] c1char).symbol = "b" ∧
    c1char.input_symbol = "x" ∧
    ((EffectCharacter.step_animation)^[6] c1char).symbol ≠
      c1char.input_symbol := by decide

/-- While the front unit's counter is below its duration, `k` advancing
steps just raise the counter to `k`. -/
theorem advance_inc (u : AnimationUnit) (rest : List AnimationUnit)
    (hfp : u.frames_played = 0) : ∀ k : ℕ, (k : ℤ) ≤ u.duration →
    (advance_units)^[k] (u :: rest) =
      { u with frames_played := (k : ℤ) } :: rest := by
  intro k
  induction k with
  | zero =>
    intro _
    cases u
    simp_all
  | succ m ih =>
    intro hk
    have hm : (m : ℤ) ≤ u.duration := by push_cast at hk ⊢; omega
    have hlt : (m : ℤ) < u.duration := by push_cast at hk; omega
    rw [Function.iterate_succ_apply', ih hm]
    cases u
    simp_all [advance_units]

/-- A fresh looping unit of nonnegative duration `d` is rotated to the back
of the list, counter reset, by exactly `d + 1` advancing steps. -/
theorem advance_rot (u : AnimationUnit) (rest : List AnimationUnit)
    (hl : u.looping = true) (hfp : u.frames_played = 0)
    (hd : 0 ≤ u.duration) :
    (advance_units)^[u.duration.toNat + 1] (u :: rest) = rest ++ [u] := by
  rw [Function.iterate_succ_apply',
    advance_inc u rest hfp u.duration.toNat (by simp [Int.toNat_of_nonneg hd])]
  cases u
  simp_all [advance_units, Int.toNat_of_nonneg hd]

/-- Rotating a whole block of fresh looping units: `cycle_len us₁` advancing
steps move `us₁` from the front to the back unchanged. -/
theorem advance_cycle_rotate : ∀ us₁ us₂ : List AnimationUnit,
    (∀ u ∈ us₁, u.looping = true ∧ u.frames_played = 0 ∧ 0 ≤ u.duration) →
    (advance_units)^[cycle_len us₁] (us₁ ++ us₂) = us₂ ++ us₁ := by
  intro us₁
  induction us₁ with
  | nil =>
    intro us₂ _
    simp [cycle_len]
  | cons u us ih =>
    intro us₂ hall
    obtain ⟨hl, hfp, hd⟩ := hall u (by simp)
    have hcl : cycle_len (u :: us) = cycle_len us + (u.duration.toNat + 1) := by
      simp only [cycle_len, List.map_cons, List.sum_cons, List.length_cons]
      omega
    rw [hcl, Function.iterate_add_apply, List.cons_append,
      advance_rot u (us ++ us₂) hl hfp hd, List.append_assoc,
      ih (us₂ ++ [u]) (fun v hv => hall v (by simp [hv])), List.append_assoc]
    simp

/-- The advancing step keeps an all-looping unit list all-looping and
nonempty. -/
theorem advance_preserves (us : List AnimationUnit)
    (h : ∀ u ∈ us, u.looping = true) :
    (∀ u ∈ advance_units us, u.looping = true) ∧
    (us ≠ [] → advance_units us ≠ []) := by
  cases us with
  | nil => simp [advance_units]
  | cons u rest =>
    have hu : u.looping = true := h u (by simp)
    have hrest : ∀ v ∈ rest, v.looping = true := fun v hv => h v (by simp [hv])
    constructor
    · intro v hv
      simp only [advance_units, hu, if_true] at hv
      by_cases hc : u.frames_played < u.duration
      · rw [if_pos hc] at hv
        rcases List.mem_cons.1 hv with hv | hv
        · subst hv; simp [hu]
        · exact hrest v hv
      · rw [if_neg hc] at hv
        rcases List.mem_append.1 hv with hv | hv
        · exact hrest v hv
        · simp only [List.mem_singleton] at hv
          subst hv; simp [hu]
    · intro _
      simp only [advance_units, hu, if_true]
      by_cases hc : u.frames_played < u.duration
      · rw [if_pos hc]; simp
      · rw [if_neg hc]; simp

/-- Iterating the advancing step on an all-looping nonempty list never
empties it. -/
theorem advance_iterate_ne_nil (us : List AnimationUnit)
    (h : ∀ u ∈ us, u.looping = true) (hne : us ≠ []) : ∀ t : ℕ,
    (∀ u ∈ (advance_units)^[t] us, u.looping = true) ∧
    (advance_units)^[t] us ≠ [] := by
  intro t
  induction t with
  | zero => exact ⟨h, hne⟩
  | succ m ih =>
    rw [Function.iterate_succ_apply']
    obtain ⟨hall, hne'⟩ := advance_preserves ((advance_units)^[m] us) ih.1
    exact ⟨hall, hne' ih.2⟩

/-- Claim C6 disproved as stated: on the looping two-unit scene with
durations `[1, 1]` (sum 2), after `1 * 2` ticks the character shows `"b"`,
not the symbol it showed at tick 0 (the pop tick of each exhausted unit
already displays the next unit, so the true period is
`sum(durations) + N`). -/
theorem claim6_counterexample :
    ((EffectCharacter.step_animation)^[2] c6char).symbol = "b" ∧
    c6char.symbol = "x" ∧
    ((EffectCharacter.step_animation)^[2] c6char).symbol ≠ c6char.symbol := by
  decide

/-- Claim C6 (amended): for a character whose units are `N` fresh looping
units with nonnegative durations, `step_animation` never empties the list,
and the displayed symbol is periodic from tick 1 onward with period
`sum(durations) + N` (each cycle spends `duration` counting ticks plus one
pop tick per unit), not `sum(durations)`. -/
theorem claim6_looping_cycle (c : EffectCharacter)
    (hall : ∀ u ∈ c.animation_units,
      u.looping = true ∧ u.frames_played = 0 ∧ 0 ≤ u.duration)
    (hne : c.animation_units ≠ []) :
    (∀ t : ℕ, ((EffectCharacter.step_animation)^[t] c).animation_units ≠ []) ∧
    (∀ t : ℕ, 1 ≤ t →
      ((EffectCharacter.step_animation)^[t + cycle_len c.animation_units]
          c).symbol =
        ((EffectCharacter.step_animation)^[t] c).symbol) := by
  have hloop : ∀ u ∈ c.animation_units, u.looping = true :=
    fun u hu => (hall u hu).1
  have hcyc : (advance_units)^[cycle_len c.animation_units]
      c.animation_units = c.animation_units := by
    have h := advance_cycle_rotate c.animation_units [] hall
    simpa using h
  have hper : ∀ t : ℕ,
      (advance_units)^[t + cycle_len c.animation_units] c.animation_units =
        (advance_units)^[t] c.animation_units := by
    intro t
    rw [Function.iterate_add_apply, hcyc]
  constructor
  · intro t
    rw [(step_iterate_fields c t).1]
    exact (advance_iterate_ne_nil c.animation_units hloop hne t).2
  · intro t ht
    obtain ⟨s, rfl⟩ : ∃ s, t = s + 1 := ⟨t - 1, by omega⟩
    have hsym : ∀ n : ℕ, ∀ u rest,
        (advance_units)^[n + 1] c.animation_units = u :: rest →
        ((EffectCharacter.step_animation)^[n + 1] c).symbol = u.symbol := by
      intro n u rest hadv
      rw [Function.iterate_succ_apply']
      refine ((publish_rule ((EffectCharacter.step_animation)^[n] c)).2
        u rest ?_).1
      rw [(step_iterate_fields c n).1,
        ← Function.iterate_succ_apply' advance_units n c.animation_units]
      exact hadv
    have hne1 := (advance_iterate_ne_nil c.animation_units hloop hne (s + 1)).2
    rcases hu : (advance_units)^[s + 1] c.animation_units with _ | ⟨u, rest⟩
    · exact absurd hu hne1
    · have h1 := hsym s u rest hu
      have h2 : (advance_units)^[(s + cycle_len c.animation_units) + 1]
          c.animation_units = u :: rest := by
        rw [show (s + cycle_len c.animation_units) + 1 =
          (s + 1) + cycle_len c.animation_units from by omega, hper (s + 1), hu]
      have h3 := hsym (s + cycle_len c.animation_units) u rest h2
      rw [show (s + 1) + cycle_len c.animation_units =
        (s + cycle_len c.animation_units) + 1 from by omega, h3, h1]

/-- Witness for C6 on the concrete looping `[1, 1]` scene, whose cycle
length is 4. -/
theorem claim6_witness :
    ((EffectCharacter.step_animation)^[1 + cycle_len c6char.animation_units]
        c6char).symbol =
      ((EffectCharacter.step_animation)^[1] c6char).symbol :=
  (claim6_looping_cycle c6char (by decide) (by decide)).2 1 (by decide)

/-- `move_pop` with no queued waypoints only records the previous
coordinate. -/
theorem move_pop_nil (c : EffectCharacter) (h : c.waypoints = []) :
    move_pop c = { c with previous_coord := c.current_coord } := by
  simp [move_pop, h]

/-- `move_pop` on arrival at the target pops the head waypoint as the new
target and resets `move_delta`. -/
theorem move_pop_arrived (c : EffectCharacter) (w : Coord) (ws : List Coord)
    (h : c.waypoints = w :: ws) (ha : c.current_coord = c.target_coord) :
    move_pop c = { c with
      previous_coord := c.current_coord,
      target_coord := w, waypoints := ws, move_delta := 0 } := by
  simp [move_pop, h, ha]

/-- `move_pop` away from the target pops nothing. -/
theorem move_pop_not_arrived (c : EffectCharacter) (w : Coord)
    (ws : List Coord) (h : c.waypoints = w :: ws)
    (ha : c.current_coord ≠ c.target_coord) :
    move_pop c = { c with previous_coord := c.current_coord } := by
  simp [move_pop, h, ha]

/-- `move_recalc` only writes the tweening fields. -/
theorem move_recalc_fields (c : EffectCharacter) :
    (move_recalc c).waypoints = c.waypoints ∧
    (move_recalc c).target_coord = c.target_coord ∧
    (move_recalc c).current_coord = c.current_coord ∧
    (move_recalc c).previous_coord = c.previous_coord ∧
    (move_recalc c).input_coord = c.input_coord := by
  unfold move_recalc
  split <;> exact ⟨rfl, rfl, rfl, rfl, rfl⟩

/-- `move_col` only writes the column coordinate and its accumulator. -/
theorem move_col_fields (c : EffectCharacter) :
    (move_col c).waypoints = c.waypoints ∧
    (move_col c).target_coord = c.target_coord ∧
    (move_col c).previous_coord = c.previous_coord ∧
    (move_col c).input_coord = c.input_coord ∧
    (move_col c).current_coord.row = c.current_coord.row ∧
    (move_col c).tweened_row = c.tweened_row ∧
    (move_col c).row_delta = c.row_delta ∧
    (move_col c).column_delta = c.column_delta ∧
    (move_col c).move_delta = c.move_delta := by
  unfold move_col
  split_ifs <;> simp

/-- `move_row` only writes the row coordinate and its accumulator. -/
theorem move_row_fields (c : EffectCharacter) :
    (move_row c).waypoints = c.waypoints ∧
    (move_row c).target_coord = c.target_coord ∧
    (move_row c).previous_coord = c.previous_coord ∧
    (move_row c).input_coord = c.input_coord ∧
    (move_row c).current_coord.column = c.current_coord.column ∧
    (move_row c).tweened_column = c.tweened_column ∧
    (move_row c).column_delta = c.column_delta ∧
    (move_row c).row_delta = c.row_delta ∧
    (move_row c).move_delta = c.move_delta := by
  unfold move_row
  split_ifs <;> simp

/-- `move` leaves the waypoint list and target exactly as `move_pop` set
them: the delta recalculation and the axis updates never touch them. -/
theorem move_after_pop (c : EffectCharacter) :
    (c.move).waypoints = (move_pop c).waypoints ∧
    (c.move).target_coord = (move_pop c).target_coord := by
  unfold EffectCharacter.move
  obtain ⟨h1w, h1t, -⟩ := move_recalc_fields (move_pop c)
  obtain ⟨h2w, h2t, -⟩ := move_col_fields (move_recalc (move_pop c))
  obtain ⟨h3w, h3t, -⟩ := move_row_fields (move_col (move_recalc (move_pop c)))
  exact ⟨(h3w.trans h2w).trans h1w, (h3t.trans h2t).trans h1t⟩

/-- With no queued waypoints, `move` keeps the empty list and the target. -/
theorem move_fixed_target (c : EffectCharacter) (h : c.waypoints = []) :
    (c.move).waypoints = [] ∧ (c.move).target_coord = c.target_coord := by
  obtain ⟨hw, ht⟩ := move_after_pop c
  rw [move_pop_nil c h] at hw ht
  exact ⟨hw.trans h, ht⟩

/-- With no queued waypoints, every iterate of `move` keeps the empty list
and the target. -/
theorem move_fixed_target_iter (c : EffectCharacter) (h : c.waypoints = [])
    (n : ℕ) :
    ((EffectCharacter.move)^[n] c).waypoints = [] ∧
    ((EffectCharacter.move)^[n] c).target_coord = c.target_coord := by
  induction n with
  | zero => exact ⟨h, rfl⟩
  | succ m ih =>
    rw [Function.iterate_succ_apply']
    obtain ⟨hw, ht⟩ := move_fixed_target ((EffectCharacter.move)^[m] c) ih.1
    exact ⟨hw, ht.trans ih.2⟩

/-- Claim C5: waypoints are consumed strictly in order: each `move` call
pops at most one waypoint; the head waypoint becomes the target, and the
list becomes its tail, exactly when the character has arrived at its current
target (so B becomes the target only once the character stands on A, even
when consecutive waypoints share a coordinate); away from the target nothing
is popped; and once the list is empty the last target is permanent under any
number of further calls. -/
theorem claim5_waypoint_order (c : EffectCharacter) :
    c.waypoints.length ≤ (c.move).waypoints.length + 1 ∧
    (∀ w ws, c.waypoints = w :: ws → c.current_coord = c.target_coord →
      (c.move).target_coord = w ∧ (c.move).waypoints = ws) ∧
    (∀ w ws, c.waypoints = w :: ws → c.current_coord ≠ c.target_coord →
      (c.move).target_coord = c.target_coord ∧
        (c.move).waypoints = w :: ws) ∧
    (c.waypoints = [] → ∀ n : ℕ,
      ((EffectCharacter.move)^[n] c).waypoints = [] ∧
      ((EffectCharacter.move)^[n] c).target_coord = c.target_coord) := by
  obtain ⟨hw, ht⟩ := move_after_pop c
  have pop2 : ∀ w ws, c.waypoints = w :: ws → c.current_coord = c.target_coord →
      (c.move).target_coord = w ∧ (c.move).waypoints = ws := by
    intro w ws hws ha
    rw [move_pop_arrived c w ws hws ha] at hw ht
    exact ⟨ht, hw⟩
  have pop3 : ∀ w ws, c.waypoints = w :: ws → c.current_coord ≠ c.target_coord →
      (c.move).target_coord = c.target_coord ∧
        (c.move).waypoints = w :: ws := by
    intro w ws hws ha
    rw [move_pop_not_arrived c w ws hws ha] at hw ht
    exact ⟨ht, hw.trans hws⟩
  refine ⟨?_, pop2, pop3, fun h n => move_fixed_target_iter c h n⟩
  rcases hws : c.waypoints with _ | ⟨w, ws⟩
  · simp
  · by_cases ha : c.current_coord = c.target_coord
    · rw [(pop2 w ws hws ha).2]
      simp
    · rw [(pop3 w ws hws ha).2]
      exact Nat.le_succ _

/-- `pyInt` on a nonnegative rational is the floor. -/
theorem pyInt_of_nonneg (q : ℚ) (h : 0 ≤ q) : pyInt q = ⌊q⌋ := if_pos h

/-- `pyInt` on an integer is the integer. -/
theorem pyInt_intCast (n : ℤ) : pyInt (n : ℚ) = n := by
  unfold pyInt
  split <;> simp

/-- `move_col` below the target: accumulate upward and truncate. -/
theorem move_col_lt (c : EffectCharacter)
    (h : c.current_coord.column < c.target_coord.column) :
    move_col c = { c with
      tweened_column := c.tweened_column + c.column_delta,
      current_coord := { c.current_coord with
        column := pyInt (c.tweened_column + c.column_delta) } } := by
  simp [move_col, h]

/-- `move_col` above the target: accumulate downward and truncate. -/
theorem move_col_gt (c : EffectCharacter)
    (h : c.target_coord.column < c.current_coord.column) :
    move_col c = { c with
      tweened_column := c.tweened_column - c.column_delta,
      current_coord := { c.current_coord with
        column := pyInt (c.tweened_column - c.column_delta) } } := by
  have h' : ¬c.current_coord.column < c.target_coord.column := by omega
  simp [move_col, h, h']

/-- `move_col` at the target does nothing. -/
theorem move_col_eq (c : EffectCharacter)
    (h : c.current_coord.column = c.target_coord.column) :
    move_col c = c := by
  simp [move_col, h]

/-- `move_row` below the target: accumulate upward and truncate. -/
theorem move_row_lt (c : EffectCharacter)
    (h : c.current_coord.row < c.target_coord.row) :
    move_row c = { c with
      tweened_row := c.tweened_row + c.row_delta,
      current_coord := { c.current_coord with
        row := pyInt (c.tweened_row + c.row_delta) } } := by
  simp [move_row, h]

/-- `move_row` above the target: accumulate downward and truncate. -/
theorem move_row_gt (c : EffectCharacter)
    (h : c.target_coord.row < c.current_coord.row) :
    move_row c = { c with
      tweened_row := c.tweened_row - c.row_delta,
      current_coord := { c.current_coord with
        row := pyInt (c.tweened_row - c.row_delta) } } := by
  have h' : ¬c.current_coord.row < c.target_coord.row := by omega
  simp [move_row, h, h']

/-- `move_row` at the target does nothing. -/
theorem move_row_eq (c : EffectCharacter)
    (h : c.current_coord.row = c.target_coord.row) :
    move_row c = c := by
  simp [move_row, h]

/-- One column-axis update with a synced accumulator and a delta in `(0, 1]`
lands between the current column and the target column, keeps the
accumulator synced, and does nothing at the target. -/
theorem move_col_step (c : EffectCharacter)
    (hd0 : 0 < c.column_delta) (hd1 : c.column_delta ≤ 1)
    (hsync : c.current_coord.column = c.target_coord.column ∨
      (0 ≤ c.tweened_column ∧ pyInt c.tweened_column = c.current_coord.column))
    (htgt : 0 ≤ c.target_coord.column) :
    between c.current_coord.column c.target_coord.column
      (move_col c).current_coord.column ∧
    ((move_col c).current_coord.column = c.target_coord.column ∨
      (0 ≤ (move_col c).tweened_column ∧
        pyInt (move_col c).tweened_column = (move_col c).current_coord.column)) ∧
    (c.current_coord.column = c.target_coord.column → move_col c = c) := by
  rcases lt_trichotomy c.current_coord.column c.target_coord.column with
    hlt | heq | hgt
  · have hs : 0 ≤ c.tweened_column ∧
        pyInt c.tweened_column = c.current_coord.column := by
      rcases hsync with h | h
      · omega
      · exact h
    obtain ⟨htw0, htwi⟩ := hs
    rw [pyInt_of_nonneg _ htw0] at htwi
    obtain ⟨hb1, hb2⟩ := Int.floor_eq_iff.mp htwi
    have ht0 : (0 : ℚ) ≤ c.tweened_column + c.column_delta := by linarith
    rw [move_col_lt c hlt]
    simp only
    refine ⟨?_, Or.inr ⟨ht0, trivial⟩, fun h => absurd h (by omega)⟩
    rw [pyInt_of_nonneg _ ht0]
    have h1 : c.current_coord.column ≤ ⌊c.tweened_column + c.column_delta⌋ :=
      Int.le_floor.2 (by linarith)
    have h2 : ⌊c.tweened_column + c.column_delta⌋ <
        c.current_coord.column + 2 :=
      Int.floor_lt.2 (by push_cast; linarith)
    exact ⟨le_trans (min_le_left _ _) h1,
      le_trans (by omega) (le_max_right c.current_coord.column _)⟩
  · rw [move_col_eq c heq]
    exact ⟨⟨min_le_left _ _, le_max_left _ _⟩, Or.inl heq, fun _ => rfl⟩
  · have hs : 0 ≤ c.tweened_column ∧
        pyInt c.tweened_column = c.current_coord.column := by
      rcases hsync with h | h
      · omega
      · exact h
    obtain ⟨htw0, htwi⟩ := hs
    rw [pyInt_of_nonneg _ htw0] at htwi
    obtain ⟨hb1, hb2⟩ := Int.floor_eq_iff.mp htwi
    have hct : (c.target_coord.column : ℚ) + 1 ≤ c.current_coord.column := by
      have : c.target_coord.column + 1 ≤ c.current_coord.column := by omega
      exact_mod_cast this
    have ht0 : (0 : ℚ) ≤ c.tweened_column - c.column_delta := by
      have : (0 : ℚ) ≤ c.target_coord.column := by exact_mod_cast htgt
      linarith
    rw [move_col_gt c hgt]
    simp only
    refine ⟨?_, Or.inr ⟨ht0, trivial⟩, fun h => absurd h (by omega)⟩
    rw [pyInt_of_nonneg _ ht0]
    have h1 : c.target_coord.column ≤ ⌊c.tweened_column - c.column_delta⌋ :=
      Int.le_floor.2 (by linarith)
    have h2 : ⌊c.tweened_column - c.column_delta⌋ ≤ c.current_coord.column := by
      rw [← htwi]
      exact Int.floor_mono (by linarith)
    exact ⟨le_trans (min_le_right _ _) h1,
      le_trans h2 (le_max_left c.current_coord.column _)⟩

/-- Row-axis analogue of `move_col_step`. -/
theorem move_row_step (c : EffectCharacter)
    (hd0 : 0 < c.row_delta) (hd1 : c.row_delta ≤ 1)
    (hsync : c.current_coord.row = c.target_coord.row ∨
      (0 ≤ c.tweened_row ∧ pyInt c.tweened_row = c.current_coord.row))
    (htgt : 0 ≤ c.target_coord.row) :
    between c.current_coord.row c.target_coord.row
      (move_row c).current_coord.row ∧
    ((move_row c).current_coord.row = c.target_coord.row ∨
      (0 ≤ (move_row c).tweened_row ∧
        pyInt (move_row c).tweened_row = (move_row c).current_coord.row)) ∧
    (c.current_coord.row = c.target_coord.row → move_row c = c) := by
  rcases lt_trichotomy c.current_coord.row c.target_coord.row with
    hlt | heq | hgt
  · have hs : 0 ≤ c.tweened_row ∧
        pyInt c.tweened_row = c.current_coord.row := by
      rcases hsync with h | h
      · omega
      · exact h
    obtain ⟨htw0, htwi⟩ := hs
    rw [pyInt_of_nonneg _ htw0] at htwi
    obtain ⟨hb1, hb2⟩ := Int.floor_eq_iff.mp htwi
    have ht0 : (0 : ℚ) ≤ c.tweened_row + c.row_delta := by linarith
    rw [move_row_lt c hlt]
    simp only
    refine ⟨?_, Or.inr ⟨ht0, trivial⟩, fun h => absurd h (by omega)⟩
    rw [pyInt_of_nonneg _ ht0]
    have h1 : c.current_coord.row ≤ ⌊c.tweened_row + c.row_delta⌋ :=
      Int.le_floor.2 (by linarith)
    have h2 : ⌊c.tweened_row + c.row_delta⌋ < c.current_coord.row + 2 :=
      Int.floor_lt.2 (by push_cast; linarith)
    exact ⟨le_trans (min_le_left _ _) h1,
      le_trans (by omega) (le_max_right c.current_coord.row _)⟩
  · rw [move_row_eq c heq]
    exact ⟨⟨min_le_left _ _, le_max_left _ _⟩, Or.inl heq, fun _ => rfl⟩
  · have hs : 0 ≤ c.tweened_row ∧
        pyInt c.tweened_row = c.current_coord.row := by
      rcases hsync with h | h
      · omega
      · exact h
    obtain ⟨htw0, htwi⟩ := hs
    rw [pyInt_of_nonneg _ htw0] at htwi
    obtain ⟨hb1, hb2⟩ := Int.floor_eq_iff.mp htwi
    have hct : (c.target_coord.row : ℚ) + 1 ≤ c.current_coord.row := by
      have : c.target_coord.row + 1 ≤ c.current_coord.row := by omega
      exact_mod_cast this
    have ht0 : (0 : ℚ) ≤ c.tweened_row - c.row_delta := by
      have : (0 : ℚ) ≤ c.target_coord.row := by exact_mod_cast htgt
      linarith
    rw [move_row_gt c hgt]
    simp only
    refine ⟨?_, Or.inr ⟨ht0, trivial⟩, fun h => absurd h (by omega)⟩
    rw [pyInt_of_nonneg _ ht0]
    have h1 : c.target_coord.row ≤ ⌊c.tweened_row - c.row_delta⌋ :=
      Int.le_floor.2 (by linarith)
    have h2 : ⌊c.tweened_row - c.row_delta⌋ ≤ c.current_coord.row := by
      rw [← htwi]
      exact Int.floor_mono (by linarith)
    exact ⟨le_trans (min_le_right _ _) h1,
      le_trans h2 (le_max_left c.current_coord.row _)⟩

/-- With a pending recalculation, `move_recalc` produces deltas in `(0, 1]`
and accumulators synced to the integer current coordinate. -/
theorem move_recalc_props (c : EffectCharacter) (h : c.move_delta = 0) :
    0 < (move_recalc c).column_delta ∧ (move_recalc c).column_delta ≤ 1 ∧
    0 < (move_recalc c).row_delta ∧ (move_recalc c).row_delta ≤ 1 ∧
    (move_recalc c).tweened_column = (c.current_coord.column : ℚ) ∧
    (move_recalc c).tweened_row = (c.current_coord.row : ℚ) := by
  unfold move_recalc
  dsimp only
  rw [if_pos h]
  set dc := |c.current_coord.column - c.target_coord.column| with hdc
  set dr := |c.current_coord.row - c.target_coord.row| with hdr
  set md0 : ℚ := ((min dc dr : ℤ) : ℚ) / ((max (max dc dr) 1 : ℤ) : ℚ)
    with hmd0def
  have hden : (0 : ℚ) < ((max (max dc dr) 1 : ℤ) : ℚ) := by
    exact_mod_cast lt_of_lt_of_le zero_lt_one (le_max_right (max dc dr) 1)
  have hnum : (0 : ℚ) ≤ ((min dc dr : ℤ) : ℚ) := by
    exact_mod_cast le_min (abs_nonneg _) (abs_nonneg _)
  have hmd0_nonneg : 0 ≤ md0 := div_nonneg hnum hden.le
  have hmd0_le1 : md0 ≤ 1 := by
    rw [hmd0def, div_le_one hden]
    exact_mod_cast le_trans min_le_max (le_max_left (max dc dr) 1)
  have hmd_pos : 0 < (if md0 = 0 then (1 : ℚ) else md0) := by
    split_ifs with h0
    · norm_num
    · exact lt_of_le_of_ne hmd0_nonneg (Ne.symm h0)
  have hmd_le : (if md0 = 0 then (1 : ℚ) else md0) ≤ 1 := by
    split_ifs with h0
    · exact le_refl 1
    · exact hmd0_le1
  rcases lt_trichotomy dc dr with hab | hab | hab
  · rw [if_pos hab]
    exact ⟨hmd_pos, hmd_le, by norm_num, by norm_num, rfl, rfl⟩
  · have h1 : ¬dc < dr := by omega
    have h2 : ¬dr < dc := by omega
    rw [if_neg h1, if_neg h2]
    exact ⟨by norm_num, by norm_num, by norm_num, by norm_num, rfl, rfl⟩
  · have h1 : ¬dc < dr := by omega
    rw [if_neg h1, if_pos hab]
    exact ⟨by norm_num, by norm_num, hmd_pos, hmd_le, rfl, rfl⟩

/-- One combined axis pass (`move_row` after `move_col`) on a character with
bounded deltas and synced accumulators: each axis lands between its current
and target values, stays synced, freezes at the target, and the target and
waypoints are untouched. -/
theorem move_axes_step (r : EffectCharacter)
    (hcd0 : 0 < r.column_delta) (hcd1 : r.column_delta ≤ 1)
    (hrd0 : 0 < r.row_delta) (hrd1 : r.row_delta ≤ 1)
    (hsc : r.current_coord.column = r.target_coord.column ∨
      (0 ≤ r.tweened_column ∧ pyInt r.tweened_column = r.current_coord.column))
    (hsr : r.current_coord.row = r.target_coord.row ∨
      (0 ≤ r.tweened_row ∧ pyInt r.tweened_row = r.current_coord.row))
    (htc : 0 ≤ r.target_coord.column) (htr : 0 ≤ r.target_coord.row) :
    between r.current_coord.column r.target_coord.column
      (move_row (move_col r)).current_coord.column ∧
    between r.current_coord.row r.target_coord.row
      (move_row (move_col r)).current_coord.row ∧
    (0 < (move_row (move_col r)).column_delta ∧
      (move_row (move_col r)).column_delta ≤ 1 ∧
      0 < (move_row (move_col r)).row_delta ∧
      (move_row (move_col r)).row_delta ≤ 1 ∧
      ((move_row (move_col r)).current_coord.column =
          (move_row (move_col r)).target_coord.column ∨
        (0 ≤ (move_row (move_col r)).tweened_column ∧
          pyInt (move_row (move_col r)).tweened_column =
            (move_row (move_col r)).current_coord.column)) ∧
      ((move_row (move_col r)).current_coord.row =
          (move_row (move_col r)).target_coord.row ∨
        (0 ≤ (move_row (move_col r)).tweened_row ∧
          pyInt (move_row (move_col r)).tweened_row =
            (move_row (move_col r)).current_coord.row))) ∧
    (r.current_coord.column = r.target_coord.column →
      (move_row (move_col r)).current_coord.column =
        r.current_coord.column) ∧
    (r.current_coord.row = r.target_coord.row →
      (move_row (move_col r)).current_coord.row = r.current_coord.row) := by
  obtain ⟨hbcol, hscol, hfcol⟩ := move_col_step r hcd0 hcd1 hsc htc
  obtain ⟨c1w, c1t, c1p, c1i, c1crow, c1twr, c1rd, c1cd, c1md⟩ :=
    move_col_fields r
  have hbrow2 := move_row_step (move_col r)
    (by rw [c1rd]; exact hrd0) (by rw [c1rd]; exact hrd1)
    (by rw [c1crow, c1t, c1twr]; exact hsr) (by rw [c1t]; exact htr)
  obtain ⟨hbrow, hsrow, hfrow⟩ := hbrow2
  obtain ⟨r1w, r1t, r1p, r1i, r1ccol, r1twc, r1cd, r1rd, r1md⟩ :=
    move_row_fields (move_col r)
  refine ⟨?_, ?_, ⟨?_, ?_, ?_, ?_, ?_, ?_⟩, ?_, ?_⟩
  · rw [r1ccol]
    exact hbcol
  · rw [c1crow, c1t] at hbrow
    exact hbrow
  · rw [r1cd, c1cd]
    exact hcd0
  · rw [r1cd, c1cd]
    exact hcd1
  · rw [r1rd, c1rd]
    exact hrd0
  · rw [r1rd, c1rd]
    exact hrd1
  · rw [r1ccol, r1twc, r1t, c1t]
    exact hscol
  · rw [r1t]
    exact hsrow
  · intro h
    rw [hfcol h]
    obtain ⟨-, -, -, -, ccol2, -⟩ := move_row_fields r
    exact ccol2
  · intro h
    have h' : (move_col r).current_coord.row = (move_col r).target_coord.row := by
      rw [c1crow, c1t]
      exact h
    have : move_row (move_col r) = move_col r := hfrow h'
    rw [this, c1crow]

/-- `move_recalc` with a nonzero `move_delta` is the identity. -/
theorem move_recalc_id (c : EffectCharacter) (h : ¬c.move_delta = 0) :
    move_recalc c = c := by
  simp [move_recalc, h]

/-- One full `move` call with no queued waypoints: the tweening invariant is
preserved, each axis of the new coordinate lies between the old coordinate
and the (unchanged) target, and an axis standing on its target does not
change. -/
theorem move_step_inv (c : EffectCharacter)
    (hw : c.waypoints = []) (hI : TweenInv c)
    (hcc : 0 ≤ c.current_coord.column) (hcr : 0 ≤ c.current_coord.row)
    (htc : 0 ≤ c.target_coord.column) (htr : 0 ≤ c.target_coord.row) :
    TweenInv (c.move) ∧
    between c.current_coord.column c.target_coord.column
      (c.move).current_coord.column ∧
    between c.current_coord.row c.target_coord.row
      (c.move).current_coord.row ∧
    (c.current_coord.column = c.target_coord.column →
      (c.move).current_coord.column = c.current_coord.column) ∧
    (c.current_coord.row = c.target_coord.row →
      (c.move).current_coord.row = c.current_coord.row) := by
  have hpop : move_pop c = { c with previous_coord := c.current_coord } :=
    move_pop_nil c hw
  have hm : c.move =
      move_row (move_col (move_recalc
        { c with previous_coord := c.current_coord })) := by
    rw [EffectCharacter.move, hpop]
  rw [hm]
  by_cases hmd : c.move_delta = 0
  · obtain ⟨rd0, rd1, rr0, rr1, rtc, rtr⟩ :=
      move_recalc_props { c with previous_coord := c.current_coord } hmd
    obtain ⟨fw, ft, fc, fp, fi⟩ :=
      move_recalc_fields { c with previous_coord := c.current_coord }
    have happ := move_axes_step
      (move_recalc { c with previous_coord := c.current_coord })
      rd0 rd1 rr0 rr1
      (Or.inr ⟨by rw [rtc]; exact_mod_cast hcc,
        by rw [rtc, fc]; exact pyInt_intCast _⟩)
      (Or.inr ⟨by rw [rtr]; exact_mod_cast hcr,
        by rw [rtr, fc]; exact pyInt_intCast _⟩)
      (by rw [ft]; exact htc) (by rw [ft]; exact htr)
    rw [fc, ft] at happ
    exact ⟨Or.inr happ.2.2.1, happ.1, happ.2.1, happ.2.2.2.1, happ.2.2.2.2⟩
  · have hrec : move_recalc { c with previous_coord := c.current_coord } =
        { c with previous_coord := c.current_coord } :=
      move_recalc_id _ hmd
    rw [hrec]
    rcases hI with hI | hI
    · exact absurd hI hmd
    obtain ⟨d1, d2, d3, d4, sc, sr⟩ := hI
    have happ := move_axes_step { c with previous_coord := c.current_coord }
      d1 d2 d3 d4 sc sr htc htr
    exact ⟨Or.inr happ.2.2.1, happ.1, happ.2.1, happ.2.2.2.1, happ.2.2.2.2⟩

/-- Interval absorption: a step that stays between the current point and the
fixed endpoint stays between the start and that endpoint. -/
theorem between_widen (a b x y : ℤ) (h1 : between a b x)
    (h2 : between x b y) : between a b y := by
  unfold between at *
  exact ⟨le_trans (le_min h1.1 (min_le_right a b)) h2.1,
    le_trans h2.2 (max_le h1.2 (le_max_right a b))⟩

/-- Claim C4: during any sequence of `move` calls toward a fixed target
with nonnegative coordinates (no waypoints queued, tweening state
well-formed), each axis of the current coordinate stays inside the closed
interval spanned by its starting value and the target value — no overshoot —
and an axis that has reached its target value is never updated again. -/
theorem claim4_no_overshoot (c : EffectCharacter)
    (hw : c.waypoints = []) (hI : TweenInv c)
    (hcc : 0 ≤ c.current_coord.column) (hcr : 0 ≤ c.current_coord.row)
    (htc : 0 ≤ c.target_coord.column) (htr : 0 ≤ c.target_coord.row) :
    ∀ n : ℕ,
    between c.current_coord.column c.target_coord.column
      ((EffectCharacter.move)^[n] c).current_coord.column ∧
    between c.current_coord.row c.target_coord.row
      ((EffectCharacter.move)^[n] c).current_coord.row ∧
    (((EffectCharacter.move)^[n] c).current_coord.column =
        c.target_coord.column →
      ((EffectCharacter.move)^[n + 1] c).current_coord.column =
        ((EffectCharacter.move)^[n] c).current_coord.column) ∧
    (((EffectCharacter.move)^[n] c).current_coord.row = c.target_coord.row →
      ((EffectCharacter.move)^[n + 1] c).current_coord.row =
        ((EffectCharacter.move)^[n] c).current_coord.row) := by
  have key : ∀ n : ℕ,
      TweenInv ((EffectCharacter.move)^[n] c) ∧
      between c.current_coord.column c.target_coord.column
        ((EffectCharacter.move)^[n] c).current_coord.column ∧
      between c.current_coord.row c.target_coord.row
        ((EffectCharacter.move)^[n] c).current_coord.row := by
    intro n
    induction n with
    | zero =>
      exact ⟨hI, ⟨min_le_left _ _, le_max_left _ _⟩,
        ⟨min_le_left _ _, le_max_left _ _⟩⟩
    | succ m ih =>
      obtain ⟨hwm, htm⟩ := move_fixed_target_iter c hw m
      have hccm : 0 ≤ ((EffectCharacter.move)^[m] c).current_coord.column :=
        le_trans (le_min hcc htc) ih.2.1.1
      have hcrm : 0 ≤ ((EffectCharacter.move)^[m] c).current_coord.row :=
        le_trans (le_min hcr htr) ih.2.2.1
      have step := move_step_inv ((EffectCharacter.move)^[m] c) hwm ih.1
        hccm hcrm (by rw [htm]; exact htc) (by rw [htm]; exact htr)
      rw [htm] at step
      rw [Function.iterate_succ_apply']
      exact ⟨step.1, between_widen _ _ _ _ ih.2.1 step.2.1,
        between_widen _ _ _ _ ih.2.2 step.2.2.1⟩
  intro n
  obtain ⟨hwn, htn⟩ := move_fixed_target_iter c hw n
  have hccn : 0 ≤ ((EffectCharacter.move)^[n] c).current_coord.column :=
    le_trans (le_min hcc htc) (key n).2.1.1
  have hcrn : 0 ≤ ((EffectCharacter.move)^[n] c).current_coord.row :=
    le_trans (le_min hcr htr) (key n).2.2.1
  have step := move_step_inv ((EffectCharacter.move)^[n] c) hwn (key n).1
    hccn hcrn (by rw [htn]; exact htc) (by rw [htn]; exact htr)
  rw [htn] at step
  rw [Function.iterate_succ_apply']
  exact ⟨(key n).2.1, (key n).2.2, step.2.2.2.1, step.2.2.2.2⟩

/-- Witness for C4: the freshly reset character at `(0, 0)` targeting
`(2, 1)`, after one step. -/
theorem claim4_witness :
    between c4char.current_coord.column c4char.target_coord.column
      ((EffectCharacter.move)^[1] c4char).current_coord.column ∧
    between c4char.current_coord.row c4char.target_coord.row
      ((EffectCharacter.move)^[1] c4char).current_coord.row ∧
    (((EffectCharacter.move)^[1] c4char).current_coord.column =
        c4char.target_coord.column →
      ((EffectCharacter.move)^[1 + 1] c4char).current_coord.column =
        ((EffectCharacter.move)^[1] c4char).current_coord.column) ∧
    (((EffectCharacter.move)^[1] c4char).current_coord.row =
        c4char.target_coord.row →
      ((EffectCharacter.move)^[1 + 1] c4char).current_coord.row =
        ((EffectCharacter.move)^[1] c4char).current_coord.row) :=
  claim4_no_overshoot c4char rfl (Or.inl rfl) (by decide) (by decide)
    (by decide) (by decide) 1

/-- A fresh non-looping unit of nonnegative duration `d` is consumed from
the front of the list by exactly `d + 1` advancing steps. -/
theorem advance_pop_nonloop (u : AnimationUnit) (rest : List AnimationUnit)
    (hl : u.looping = false) (hfp : u.frames_played = 0)
    (hd : 0 ≤ u.duration) :
    (advance_units)^[u.duration.toNat + 1] (u :: rest) = rest := by
  rw [Function.iterate_succ_apply',
    advance_inc u rest hfp u.duration.toNat (by simp [Int.toNat_of_nonneg hd])]
  simp [advance_units, hl, Int.toNat_of_nonneg hd]

/-- A whole block of fresh non-looping units is consumed by `cycle_len`
advancing steps, leaving the remainder untouched. -/
theorem advance_consume : ∀ us₁ us₂ : List AnimationUnit,
    (∀ u ∈ us₁, u.looping = false ∧ u.frames_played = 0 ∧ 0 ≤ u.duration) →
    (advance_units)^[cycle_len us₁] (us₁ ++ us₂) = us₂ := by
  intro us₁
  induction us₁ with
  | nil =>
    intro us₂ _
    simp [cycle_len]
  | cons u us ih =>
    intro us₂ hall
    obtain ⟨hl, hfp, hd⟩ := hall u (by simp)
    have hcl : cycle_len (u :: us) = cycle_len us + (u.duration.toNat + 1) := by
      simp only [cycle_len, List.map_cons, List.sum_cons, List.length_cons]
      omega
    rw [hcl, Function.iterate_add_apply, List.cons_append,
      advance_pop_nonloop u (us ++ us₂) hl hfp hd,
      ih us₂ (fun v hv => hall v (by simp [hv]))]

/-- After `n + 1` animation steps the displayed symbol is the head of the
advanced unit list. -/
theorem step_symbol_head (c : EffectCharacter) (n : ℕ) (u : AnimationUnit)
    (rest : List AnimationUnit)
    (hadv : (advance_units)^[n + 1] c.animation_units = u :: rest) :
    ((EffectCharacter.step_animation)^[n + 1] c).symbol = u.symbol := by
  rw [Function.iterate_succ_apply']
  refine ((publish_rule ((EffectCharacter.step_animation)^[n] c)).2 u rest ?_).1
  rw [(step_iterate_fields c n).1,
    ← Function.iterate_succ_apply' advance_units n c.animation_units]
  exact hadv

/-- After `n + 1` animation steps with no units left, the displayed symbol
is the fallback symbol of the original character. -/
theorem step_symbol_empty (c : EffectCharacter) (n : ℕ)
    (hadv : (advance_units)^[n + 1] c.animation_units = []) :
    ((EffectCharacter.step_animation)^[n + 1] c).symbol =
      (if c.use_alternate_symbol then c.alternate_symbol
       else c.input_symbol) := by
  rw [Function.iterate_succ_apply']
  have hpre : advance_units
      (((EffectCharacter.step_animation)^[n] c).animation_units) = [] := by
    rw [(step_iterate_fields c n).1,
      ← Function.iterate_succ_apply' advance_units n c.animation_units]
    exact hadv
  have h := (publish_rule ((EffectCharacter.step_animation)^[n] c)).1 hpre
  obtain ⟨-, hua, hal, hin, -⟩ := step_iterate_fields c n
  rw [h.1, hua, hal, hin]

/-- Claim C1 (amended, general): for every non-looping animation sequence
of fresh units with nonnegative durations, the units are displayed once, in
registration order: the unit preceded by the block `us₁` is displayed
exactly on ticks `cycle_len us₁ .. cycle_len us₁ + duration` (so the first
unit shows for `duration` ticks and every later unit for `duration + 1`
ticks, its first tick being the tick that pops its predecessor, which
already displays it without incrementing its counter), and from tick
`sum(durations) + N` onward the unit list is empty and the symbol is the
input symbol (or the alternate symbol when flagged) forever. -/
theorem claim1_nonlooping_schedule (c : EffectCharacter)
    (hall : ∀ u ∈ c.animation_units,
      u.looping = false ∧ u.frames_played = 0 ∧ 0 ≤ u.duration) :
    (∀ us₁ u us₂, c.animation_units = us₁ ++ u :: us₂ →
      ∀ t : ℕ, 1 ≤ t → cycle_len us₁ ≤ t →
        t < cycle_len us₁ + (u.duration.toNat + 1) →
        ((EffectCharacter.step_animation)^[t] c).symbol = u.symbol) ∧
    (∀ t : ℕ, 1 ≤ t → cycle_len c.animation_units ≤ t →
      ((EffectCharacter.step_animation)^[t] c).animation_units = [] ∧
      ((EffectCharacter.step_animation)^[t] c).symbol =
        (if c.use_alternate_symbol then c.alternate_symbol
         else c.input_symbol)) := by
  constructor
  · intro us₁ u us₂ hsplit t ht1 htlo hthi
    obtain ⟨hl, hfp, hd⟩ := hall u
      (by rw [hsplit]; exact List.mem_append_right _ (List.mem_cons_self u us₂))
    have hcons : (advance_units)^[cycle_len us₁] c.animation_units =
        u :: us₂ := by
      rw [hsplit]
      exact advance_consume us₁ (u :: us₂)
        (fun v hv => hall v (by rw [hsplit]; exact List.mem_append_left _ hv))
    obtain ⟨k, hk⟩ : ∃ k, t = k + cycle_len us₁ := ⟨t - cycle_len us₁, by omega⟩
    have hkd : k ≤ u.duration.toNat := by omega
    have hkd' : (k : ℤ) ≤ u.duration := by
      rw [← Int.toNat_of_nonneg hd]
      exact_mod_cast hkd
    have hadv : (advance_units)^[t] c.animation_units =
        { u with frames_played := (k : ℤ) } :: us₂ := by
      rw [hk, Function.iterate_add_apply, hcons, advance_inc u us₂ hfp k hkd']
    cases t with
    | zero => omega
    | succ s =>
      rw [step_symbol_head c s _ us₂ hadv]
  · intro t ht1 htc
    have hnil : (advance_units)^[cycle_len c.animation_units]
        c.animation_units = [] := by
      have h := advance_consume c.animation_units [] hall
      simpa using h
    have hadv : (advance_units)^[t] c.animation_units = [] := by
      rw [show t = (t - cycle_len c.animation_units) +
          cycle_len c.animation_units from by omega,
        Function.iterate_add_apply, hnil]
      exact Function.iterate_fixed rfl _
    refine ⟨by rw [(step_iterate_fields c t).1]; exact hadv, ?_⟩
    cases t with
    | zero => omega
    | succ s => exact step_symbol_empty c s hadv

/-- Witness for C1 on the `[2, 3]` scene: tick 6 (inside the second unit's
window, `cycle_len [first] = 3 ≤ 6 < 3 + 4`) shows `"b"`, and tick 7
(`cycle_len` of the whole scene) shows the input symbol `"x"`. -/
theorem claim1_nonlooping_witness :
    ((EffectCharacter.step_animation)^[6] c1char).symbol = "b" ∧
    ((EffectCharacter.step_animation)^[7] c1char).symbol = "x" := by
  have h := claim1_nonlooping_schedule c1char (by decide)
  constructor
  · have hb := h.1 [⟨"a", 2, false, {}, 0⟩] ⟨"b", 3, false, {}, 0⟩ []
      (by decide) 6 (by decide) (by decide) (by decide)
    rw [hb]
  · have hx := (h.2 7 (by decide) (by decide)).2
    rw [hx]
    decide
